import Mathlib

/-!
Verification of the consolidation/compaction engine of the
database-stream-processor trace store, together with the project-status
column codec of the pipeline server.

The consolidation engine itself (crates/dbsp/src/trace/consolidation) is
exercised by its property tests; its routines are embedded here as list
functions over a linearly ordered key type with integer weights, following
the behaviour the specification describes: sort by key, fold each maximal
equal-key run into a single entry holding the summed weight, and drop
entries whose summed weight is zero.
-/

namespace DBSP

/-- Key-order comparison on (key, value) pairs: compares first components
under the key order, ignoring the paired value. -/
def fstLe {K V : Type} [LinearOrder K] (a b : K × V) : Prop := a.1 ≤ b.1

instance {K V : Type} [LinearOrder K] : DecidableRel (@fstLe K V _) :=
  fun a b => inferInstanceAs (Decidable (a.1 ≤ b.1))

instance {K V : Type} [LinearOrder K] : IsTotal (K × V) fstLe :=
  ⟨fun a b => le_total a.1 b.1⟩

instance {K V : Type} [LinearOrder K] : IsTrans (K × V) fstLe :=
  ⟨fun _ _ _ h1 h2 => le_trans h1 h2⟩

/-- Modelled from the spec: the key-sort step shared by the consolidation
variants (the two-array quicksort kernel of crates/dbsp is not under src/,
only its property tests are). The spec contract for the sort is purely
observational — output sorted ascending by key, and a permutation of the
input rows — so the model realizes it with insertion sort over rows. -/
def sortByKey {K V : Type} [LinearOrder K] (l : List (K × V)) : List (K × V) :=
  List.insertionSort fstLe l

/-- Modelled from the spec: the single left-to-right scan of the diff
consolidator, folding every maximal run of equal keys into one entry whose
weight is the run's sum (spec section 4.4, step 2). -/
def sumRuns {K : Type} [LinearOrder K] : List (K × Int) → List (K × Int)
  | [] => []
  | (k, w) :: rest =>
    match sumRuns rest with
    | [] => [(k, w)]
    | (k2, w2) :: tail =>
      if k = k2 then (k, w + w2) :: tail else (k, w) :: (k2, w2) :: tail

/-- Modelled from the spec: the combined-array consolidate routine of
crates/dbsp (not under src/): sort by key, sum each equal-key run, drop
zero-weight results (spec section 4.4). -/
def consolidate {K : Type} [LinearOrder K] (batch : List (K × Int)) : List (K × Int) :=
  (sumRuns (sortByKey batch)).filter (fun p => p.2 != 0)

/-- Modelled from the spec: the boundary handling of the offset-aware
consolidation variants (spec section 4.4): when the first key of the
consolidated suffix equals the key of the last entry of the
already-canonical region before the offset, the two entries are folded into
one, and dropped when the folded weight is zero. -/
def boundaryMerge {K : Type} [LinearOrder K] (pre sfx : List (K × Int)) :
    List (K × Int) :=
  match pre.getLast?, sfx with
  | some (k, w), (k2, w2) :: rest =>
    if k = k2 then
      if w + w2 = 0 then pre.dropLast ++ rest
      else pre.dropLast ++ (k, w + w2) :: rest
    else pre ++ sfx
  | _, _ => pre ++ sfx

/-- Modelled from the spec: the offset variant of consolidate
(crates/dbsp, not under src/): the region before the offset is asserted
canonical and left in place, the suffix is consolidated, and a suffix run
key-equal to the last pre-offset entry is folded across the boundary. -/
def consolidate_from {K : Type} [LinearOrder K] (batch : List (K × Int))
    (offset : Nat) : List (K × Int) :=
  boundaryMerge (batch.take offset) (consolidate (batch.drop offset))

/-- Modelled from the spec: the slice variant of consolidate
(crates/dbsp, not under src/). It cannot shrink its backing storage, so it
returns the new valid length together with the storage, whose consolidated
content occupies the indices below that length; the stale tail keeps the
overall length of the input and must not be read. -/
def consolidate_slice {K : Type} [LinearOrder K] (batch : List (K × Int)) :
    List (K × Int) × Nat :=
  let out := consolidate batch
  (out ++ batch.drop out.length, out.length)

/-- Modelled from the spec: the parallel-slices variant of consolidate
(crates/dbsp, not under src/): equal-length key and weight arrays are
consolidated in lockstep and the new valid length is returned; both arrays
keep stale tails beyond that length. -/
def consolidate_paired_slices {K : Type} [LinearOrder K] (keys : List K)
    (diffs : List Int) : (List K × List Int) × Nat :=
  let out := consolidate (keys.zip diffs)
  ((out.map Prod.fst ++ keys.drop out.length,
    out.map Prod.snd ++ diffs.drop out.length), out.length)

/-- Modelled from the spec: the offset-aware parallel-arrays variant of
consolidate (crates/dbsp, not under src/): keys and weights are held in
separate equal-length arrays, consolidated from the given offset, and both
arrays are truncated to the consolidated content. -/
def consolidate_payload_from {K : Type} [LinearOrder K] (keys : List K)
    (diffs : List Int) (offset : Nat) : List K × List Int :=
  let out := consolidate_from (keys.zip diffs) offset
  (out.map Prod.fst, out.map Prod.snd)

/-- Modelled from the spec: the two-array quicksort kernel (crates/dbsp,
not under src/): sorts the primary array ascending and applies the
identical index permutation to the companion array. The model sorts the
zipped rows by primary value, which realizes exactly that contract. -/
def quicksort {K V : Type} [LinearOrder K] (keys : List K) (vals : List V) :
    List K × List V :=
  let s := sortByKey (keys.zip vals)
  (s.map Prod.fst, s.map Prod.snd)

/-- Index-tracking scan underlying retain_starting_at: positions below the
offset are copied unconditionally without consulting the predicate,
positions at or above it are kept exactly when the predicate holds. -/
def retainGo {α : Type} (p : α → Bool) (off : Nat) : Nat → List α → List α
  | _, [] => []
  | i, a :: rest =>
    if i < off then a :: retainGo p off (i + 1) rest
    else if p a then a :: retainGo p off (i + 1) rest
    else retainGo p off (i + 1) rest

/-- Modelled from the spec: the offset filter primitive of crates/dbsp
(not under src/): removes every element at index at least the offset that
fails the predicate, compacting survivors leftward in order, and leaves
the region below the offset untouched. -/
def retain_starting_at {α : Type} (xs : List α) (off : Nat) (p : α → Bool) :
    List α :=
  retainGo p off 0 xs

/-- Keep-mask over a key array after its first element: an element is
marked false (dropped) when the comparator relates it to the most recently
kept key, and true (kept) otherwise, in which case it becomes the new
reference key. -/
def keepMaskAux {K : Type} (same : K → K → Bool) : K → List K → List Bool
  | _, [] => []
  | lastKept, k :: rest =>
    if same k lastKept then false :: keepMaskAux same lastKept rest
    else true :: keepMaskAux same k rest

/-- Keep-mask over a whole key array: the first element is always kept. -/
def keepMask {K : Type} (same : K → K → Bool) : List K → List Bool
  | [] => []
  | k :: rest => true :: keepMaskAux same k rest

/-- Applies a keep-mask positionally to a column, retaining exactly the
elements whose mask bit is true. -/
def applyMask {α : Type} : List Bool → List α → List α
  | b :: m, a :: rest => if b then a :: applyMask m rest else applyMask m rest
  | _, rest => rest

/-- Modelled from the spec: the multi-column dedup primitive of
crates/dbsp (not under src/): collapses every run of comparator-equal keys
past the offset to its first row, and removes the very same index set from
the payload column, which models the tuple of parallel columns as a single
column of row tuples (none, one, or nested pairs). The shared keep-mask is
computed once from the key array and applied to every column. -/
def dedup_payload_starting_at {K P : Type} (keys : List K) (payload : List P)
    (off : Nat) (same : K → K → Bool) : List K × List P :=
  let mask := keepMask same (keys.drop off)
  (keys.take off ++ applyMask mask (keys.drop off),
   payload.take off ++ applyMask mask (payload.drop off))

/-- Reference keep-first-of-each-run pass, comparing every candidate to the
most recently kept element (the semantics of Vec::dedup_by). -/
def dedupFirstAux {α : Type} (same : α → α → Bool) : α → List α → List α
  | _, [] => []
  | lastKept, a :: rest =>
    if same a lastKept then dedupFirstAux same lastKept rest
    else a :: dedupFirstAux same a rest

/-- Reference keep-first-of-each-run pass over a whole list. -/
def dedupFirst {α : Type} (same : α → α → Bool) : List α → List α
  | [] => []
  | a :: rest => a :: dedupFirstAux same a rest

/-- Total weight contributed by one key: the sum of the weights of every
record of the batch holding that key. -/
def keyWeight {K : Type} [LinearOrder K] (k : K) (l : List (K × Int)) : Int :=
  (l.map (fun p => if p.1 = k then p.2 else 0)).sum

/-- Number of records of the batch holding the given key. -/
def countKey {K : Type} [LinearOrder K] (k : K) (l : List (K × Int)) : Nat :=
  l.countP (fun p => decide (p.1 = k))

/-- Strict key-order comparison on (key, value) pairs. -/
def fstLt {K V : Type} [LinearOrder K] (a b : K × V) : Prop := a.1 < b.1

instance {K V : Type} [LinearOrder K] : IsAntisymm (K × V) fstLt :=
  ⟨fun _ _ h1 h2 => absurd h2 (lt_asymm h1)⟩

instance {K V : Type} [LinearOrder K] : DecidableRel (@fstLt K V _) :=
  fun a b => inferInstanceAs (Decidable (a.1 < b.1))

/-- Compilation status of a project, as stored by the pipeline server
(pipeline_server/src/db.rs). -/
inductive ProjectStatus : Type
  | none
  | success
  | pending
  | compiling
  | sqlError (msg : String)
  | rustError (msg : String)
deriving DecidableEq

/-- Decoding of a ProjectStatus from its two database columns
(pipeline_server/src/db.rs, from_columns). -/
def ProjectStatus.from_columns (status_string : Option String)
    (error_string : Option String) : Except String ProjectStatus :=
  match status_string with
  | Option.none => Except.ok ProjectStatus.none
  | some "success" => Except.ok ProjectStatus.success
  | some "pending" => Except.ok ProjectStatus.pending
  | some "compiling" => Except.ok ProjectStatus.compiling
  | some "sql_error" => Except.ok (ProjectStatus.sqlError (error_string.getD ""))
  | some "rust_error" => Except.ok (ProjectStatus.rustError (error_string.getD ""))
  | some status => Except.error ("invalid status string \x27" ++ status ++ "\x27")

/-- Encoding of a ProjectStatus into its two database columns
(pipeline_server/src/db.rs, to_columns). -/
def ProjectStatus.to_columns : ProjectStatus → Option String × Option String
  | ProjectStatus.none => (Option.none, Option.none)
  | ProjectStatus.success => (some "success", Option.none)
  | ProjectStatus.pending => (some "pending", Option.none)
  | ProjectStatus.compiling => (some "compiling", Option.none)
  | ProjectStatus.sqlError e => (some "sql_error", some e)
  | ProjectStatus.rustError e => (some "rust_error", some e)

/-! ### Helper lemmas: unfolding equations for the run-summing scan -/

theorem sumRuns_cons_nil {K : Type} [LinearOrder K] {k0 : K} {w0 : Int}
    {rest : List (K × Int)} (hs : sumRuns rest = []) :
    sumRuns ((k0, w0) :: rest) = [(k0, w0)] := by
  rw [sumRuns, hs]

theorem sumRuns_cons_cons {K : Type} [LinearOrder K] {k0 k2 : K} {w0 w2 : Int}
    {rest tail : List (K × Int)} (hs : sumRuns rest = (k2, w2) :: tail) :
    sumRuns ((k0, w0) :: rest)
      = if k0 = k2 then (k0, w0 + w2) :: tail
        else (k0, w0) :: (k2, w2) :: tail := by
  rw [sumRuns, hs]

/-! ### Helper lemmas: per-key weight accounting -/

theorem keyWeight_cons {K : Type} [LinearOrder K] (k : K) (p : K × Int)
    (l : List (K × Int)) :
    keyWeight k (p :: l) = (if p.1 = k then p.2 else 0) + keyWeight k l := by
  simp [keyWeight]

theorem keyWeight_append {K : Type} [LinearOrder K] (k : K)
    (l1 l2 : List (K × Int)) :
    keyWeight k (l1 ++ l2) = keyWeight k l1 + keyWeight k l2 := by
  simp [keyWeight]

theorem keyWeight_perm {K : Type} [LinearOrder K] (k : K)
    {l1 l2 : List (K × Int)} (h : l1.Perm l2) :
    keyWeight k l1 = keyWeight k l2 :=
  (h.map _).sum_eq

theorem keyWeight_eq_zero {K : Type} [LinearOrder K] (k : K)
    {l : List (K × Int)} (h : ∀ p ∈ l, p.1 ≠ k) : keyWeight k l = 0 := by
  refine List.sum_eq_zero ?_
  intro x hx
  rcases List.mem_map.mp hx with ⟨p, hp, rfl⟩
  simp [h p hp]

theorem sumRuns_keyWeight {K : Type} [LinearOrder K] (k : K)
    (l : List (K × Int)) : keyWeight k (sumRuns l) = keyWeight k l := by
  induction l with
  | nil => rfl
  | cons p rest ih =>
    obtain ⟨k0, w0⟩ := p
    cases hs : sumRuns rest with
    | nil =>
      rw [hs] at ih
      have h0 : keyWeight k rest = 0 :=
        ih.symm.trans (rfl : keyWeight k ([] : List (K × Int)) = 0)
      rw [sumRuns_cons_nil hs, keyWeight_cons, keyWeight_cons, h0]
      simp [keyWeight]
    | cons q tail =>
      obtain ⟨k2, w2⟩ := q
      rw [hs] at ih
      rw [keyWeight_cons, ← ih, keyWeight_cons]
      by_cases hk : k0 = k2
      · subst hk
        rw [sumRuns_cons_cons hs, if_pos rfl, keyWeight_cons]
        by_cases hkk : k0 = k
        · simp only [hkk, eq_self_iff_true, if_true]
          ring
        · simp only [if_neg hkk]
          ring
      · rw [sumRuns_cons_cons hs, if_neg hk, keyWeight_cons, keyWeight_cons]

theorem filter_keyWeight {K : Type} [LinearOrder K] (k : K)
    (l : List (K × Int)) :
    keyWeight k (l.filter (fun p => p.2 != 0)) = keyWeight k l := by
  induction l with
  | nil => rfl
  | cons p rest ih =>
    by_cases hz : p.2 = 0
    · rw [List.filter_cons, if_neg (by simp [hz]), ih, keyWeight_cons, hz]
      simp
    · rw [List.filter_cons, if_pos (by simp [hz]), keyWeight_cons, ih,
        keyWeight_cons]

theorem consolidate_keyWeight {K : Type} [LinearOrder K] (k : K)
    (b : List (K × Int)) : keyWeight k (consolidate b) = keyWeight k b := by
  unfold consolidate
  rw [filter_keyWeight, sumRuns_keyWeight]
  exact keyWeight_perm k (List.perm_insertionSort _ _)

/-! ### Helper lemmas: sortedness and canonical shape -/

theorem sortByKey_sorted {K V : Type} [LinearOrder K] (l : List (K × V)) :
    List.Sorted fstLe (sortByKey l) :=
  List.sorted_insertionSort _ _

theorem sortByKey_perm {K V : Type} [LinearOrder K] (l : List (K × V)) :
    (sortByKey l).Perm l :=
  List.perm_insertionSort _ _

theorem mem_sumRuns_keys {K : Type} [LinearOrder K]
    {l : List (K × Int)} {p : K × Int} (hp : p ∈ sumRuns l) :
    p.1 ∈ l.map Prod.fst := by
  induction l with
  | nil => simp [sumRuns] at hp
  | cons q rest ih =>
    obtain ⟨k0, w0⟩ := q
    cases hs : sumRuns rest with
    | nil =>
      rw [sumRuns_cons_nil hs] at hp
      simp at hp
      simp [hp]
    | cons r tail =>
      obtain ⟨k2, w2⟩ := r
      rw [sumRuns_cons_cons hs] at hp
      by_cases hk : k0 = k2
      · rw [if_pos hk] at hp
        rcases List.mem_cons.mp hp with h1 | h1
        · simp [h1]
        · have : p ∈ sumRuns rest := by rw [hs]; exact List.mem_cons_of_mem _ h1
          simp [ih this]
      · rw [if_neg hk] at hp
        rcases List.mem_cons.mp hp with h1 | h1
        · simp [h1]
        · have : p ∈ sumRuns rest := by rw [hs]; exact h1
          simp [ih this]

theorem sumRuns_pairwise {K : Type} [LinearOrder K]
    {l : List (K × Int)} (h : List.Sorted fstLe l) :
    List.Pairwise (fun p q : K × Int => p.1 < q.1) (sumRuns l) := by
  induction l with
  | nil => exact List.Pairwise.nil
  | cons p rest ih =>
    obtain ⟨k0, w0⟩ := p
    have hrest : List.Sorted fstLe rest := h.tail
    have hhead : ∀ q ∈ rest, k0 ≤ q.1 := fun q hq =>
      List.rel_of_sorted_cons h q hq
    have ihp := ih hrest
    cases hs : sumRuns rest with
    | nil => rw [sumRuns_cons_nil hs]; simp
    | cons r tail =>
      obtain ⟨k2, w2⟩ := r
      rw [hs] at ihp
      have hk2mem : k2 ∈ rest.map Prod.fst := by
        have : ((k2, w2) : K × Int) ∈ sumRuns rest := by
          rw [hs]; exact List.mem_cons_self _ _
        exact mem_sumRuns_keys this
      have hk02 : k0 ≤ k2 := by
        rcases List.mem_map.mp hk2mem with ⟨q, hq, hq2⟩
        exact hq2 ▸ hhead q hq
      by_cases hk : k0 = k2
      · rw [sumRuns_cons_cons hs, if_pos hk]
        refine List.Pairwise.cons ?_ ihp.tail
        intro q hq
        exact hk ▸ List.rel_of_pairwise_cons ihp hq
      · rw [sumRuns_cons_cons hs, if_neg hk]
        have hk0lt : k0 < k2 := lt_of_le_of_ne hk02 hk
        refine List.Pairwise.cons ?_ ihp
        intro q hq
        rcases List.mem_cons.mp hq with h1 | h1
        · rw [h1]; exact hk0lt
        · exact lt_trans hk0lt (List.rel_of_pairwise_cons ihp h1)

theorem consolidate_pairwise {K : Type} [LinearOrder K] (b : List (K × Int)) :
    List.Pairwise (fun p q : K × Int => p.1 < q.1) (consolidate b) :=
  List.Pairwise.filter _ (sumRuns_pairwise (sortByKey_sorted b))

theorem consolidate_nonzero {K : Type} [LinearOrder K] {b : List (K × Int)}
    {p : K × Int} (hp : p ∈ consolidate b) : p.2 ≠ 0 := by
  have := (List.mem_filter.mp hp).2
  simpa using this

theorem sumRuns_length_le {K : Type} [LinearOrder K] (l : List (K × Int)) :
    (sumRuns l).length ≤ l.length := by
  induction l with
  | nil => simp [sumRuns]
  | cons p rest ih =>
    obtain ⟨k0, w0⟩ := p
    cases hs : sumRuns rest with
    | nil => rw [sumRuns_cons_nil hs]; simp
    | cons r tail =>
      obtain ⟨k2, w2⟩ := r
      rw [hs] at ih
      by_cases hk : k0 = k2
      · rw [sumRuns_cons_cons hs, if_pos hk]
        simp only [List.length_cons] at ih ⊢
        omega
      · rw [sumRuns_cons_cons hs, if_neg hk]
        simp only [List.length_cons] at ih ⊢
        omega

theorem consolidate_length_le {K : Type} [LinearOrder K] (b : List (K × Int)) :
    (consolidate b).length ≤ b.length := by
  unfold consolidate
  calc ((sumRuns (sortByKey b)).filter _).length
      ≤ (sumRuns (sortByKey b)).length := List.length_filter_le _ _
    _ ≤ (sortByKey b).length := sumRuns_length_le _
    _ = b.length := (sortByKey_perm b).length_eq

/-! ### Helper lemmas: canonical lists are fixed points -/

theorem sumRuns_eq_self {K : Type} [LinearOrder K] {l : List (K × Int)}
    (h : List.Pairwise (fun p q : K × Int => p.1 < q.1) l) : sumRuns l = l := by
  induction l with
  | nil => rfl
  | cons p rest ih =>
    obtain ⟨k0, w0⟩ := p
    have hrest := ih h.tail
    cases rest with
    | nil => rw [sumRuns_cons_nil hrest]
    | cons q tail =>
      obtain ⟨k2, w2⟩ := q
      have hk : k0 < k2 := List.rel_of_pairwise_cons h (List.mem_cons_self _ _)
      rw [sumRuns_cons_cons hrest, if_neg (ne_of_lt hk)]

theorem consolidate_eq_self {K : Type} [LinearOrder K] {l : List (K × Int)}
    (hsorted : List.Pairwise (fun p q : K × Int => p.1 < q.1) l)
    (hnz : ∀ p ∈ l, p.2 ≠ 0) : consolidate l = l := by
  unfold consolidate
  have h1 : sortByKey l = l := by
    refine List.Sorted.insertionSort_eq ?_
    exact hsorted.imp (fun h => le_of_lt h)
  rw [h1, sumRuns_eq_self hsorted]
  exact List.filter_eq_self.mpr (fun p hp => by simpa using hnz p hp)

/-! ### Helper lemmas: output keys come from the input -/

theorem mem_consolidate_keys {K : Type} [LinearOrder K]
    {b : List (K × Int)} {p : K × Int} (hp : p ∈ consolidate b) :
    p.1 ∈ b.map Prod.fst := by
  have h1 : p ∈ sumRuns (sortByKey b) := (List.mem_filter.mp hp).1
  have h2 : p.1 ∈ (sortByKey b).map Prod.fst := mem_sumRuns_keys h1
  exact ((sortByKey_perm b).map Prod.fst).mem_iff.mp h2

theorem keyWeight_of_mem_pairwise {K : Type} [LinearOrder K]
    {l : List (K × Int)} {k : K} {w : Int}
    (h : List.Pairwise (fun p q : K × Int => p.1 < q.1) l)
    (hm : (k, w) ∈ l) : keyWeight k l = w := by
  induction l with
  | nil => simp at hm
  | cons p rest ih =>
    rcases List.mem_cons.mp hm with h1 | h1
    · have hrest : keyWeight k rest = 0 := by
        refine keyWeight_eq_zero k (fun q hq => ?_)
        have := List.rel_of_pairwise_cons h hq
        rw [← h1] at this
        exact ne_of_gt this
      rw [keyWeight_cons, hrest, ← h1]
      simp
    · have hk : p.1 ≠ k := by
        have := List.rel_of_pairwise_cons h h1
        exact ne_of_lt this
      rw [keyWeight_cons, if_neg hk, ih h.tail h1]
      simp

/-! ### Helper lemmas: layout adapters -/

theorem zipFstSnd {α β : Type} (l : List (α × β)) :
    (l.map Prod.fst).zip (l.map Prod.snd) = l := by
  induction l with
  | nil => rfl
  | cons p rest ih => simp [ih]

theorem boundaryMerge_nil_left {K : Type} [LinearOrder K]
    (sfx : List (K × Int)) : boundaryMerge [] sfx = sfx := by
  cases sfx with
  | nil => rfl
  | cons p rest => obtain ⟨k2, w2⟩ := p; rfl

theorem consolidate_from_zero {K : Type} [LinearOrder K]
    (b : List (K × Int)) : consolidate_from b 0 = consolidate b := by
  unfold consolidate_from
  rw [List.take_zero, List.drop_zero, boundaryMerge_nil_left]

theorem consolidate_slice_take {K : Type} [LinearOrder K]
    (b : List (K × Int)) :
    (consolidate_slice b).1.take (consolidate_slice b).2 = consolidate b := by
  unfold consolidate_slice
  exact List.take_left _ _

theorem consolidate_paired_take_zip {K : Type} [LinearOrder K]
    (keys : List K) (diffs : List Int) :
    ((consolidate_paired_slices keys diffs).1.1.take
        (consolidate_paired_slices keys diffs).2).zip
      ((consolidate_paired_slices keys diffs).1.2.take
        (consolidate_paired_slices keys diffs).2)
      = consolidate (keys.zip diffs) := by
  unfold consolidate_paired_slices
  simp only []
  generalize consolidate (keys.zip diffs) = out
  have t1 : (out.map Prod.fst ++ keys.drop out.length).take out.length
      = out.map Prod.fst := by
    rw [show out.length = (out.map Prod.fst).length by simp, List.take_left]
  have t2 : (out.map Prod.snd ++ diffs.drop out.length).take out.length
      = out.map Prod.snd := by
    rw [show out.length = (out.map Prod.snd).length by simp, List.take_left]
  rw [t1, t2, zipFstSnd]

theorem consolidate_payload_zip {K : Type} [LinearOrder K]
    (keys : List K) (diffs : List Int) (offset : Nat) :
    (consolidate_payload_from keys diffs offset).1.zip
      (consolidate_payload_from keys diffs offset).2
      = consolidate_from (keys.zip diffs) offset := by
  unfold consolidate_payload_from
  exact zipFstSnd _

/-! ### Helper lemmas: key multiplicity -/

theorem countKey_cons {K : Type} [LinearOrder K] (k : K) (p : K × Int)
    (l : List (K × Int)) :
    countKey k (p :: l) = countKey k l + (if p.1 = k then 1 else 0) := by
  unfold countKey
  rw [List.countP_cons]
  by_cases h : p.1 = k <;> simp [h]

theorem countKey_append {K : Type} [LinearOrder K] (k : K)
    (l1 l2 : List (K × Int)) :
    countKey k (l1 ++ l2) = countKey k l1 + countKey k l2 :=
  List.countP_append _ _ _

theorem countKey_eq_zero {K : Type} [LinearOrder K] {k : K}
    {l : List (K × Int)} (h : ∀ p ∈ l, p.1 ≠ k) : countKey k l = 0 :=
  List.countP_eq_zero.mpr (fun p hp => by simpa using h p hp)

theorem countKey_le_one_of_pairwise {K : Type} [LinearOrder K] {k : K}
    {l : List (K × Int)}
    (h : List.Pairwise (fun p q : K × Int => p.1 < q.1) l) :
    countKey k l ≤ 1 := by
  induction l with
  | nil => simp [countKey]
  | cons p rest ih =>
    rw [countKey_cons]
    by_cases hk : p.1 = k
    · have h0 : countKey k rest = 0 := by
        refine countKey_eq_zero (fun q hq => ?_)
        have := List.rel_of_pairwise_cons h hq
        rw [hk] at this
        exact ne_of_gt this
      simp [hk, h0]
    · have := ih h.tail
      simp only [if_neg hk]
      omega

/-! ### Helper lemmas: boundary fold of the offset variants -/

theorem getLast?_decomp {α : Type} :
    ∀ (l : List α) (x : α), l.getLast? = some x → l = l.dropLast ++ [x]
  | [], x, h => by simp at h
  | [a], x, h => by
    simp only [List.getLast?_singleton, Option.some_inj] at h
    simp [h]
  | a :: b :: t, x, h => by
    rw [List.getLast?_cons_cons] at h
    have ih := getLast?_decomp (b :: t) x h
    calc a :: b :: t = a :: ((b :: t).dropLast ++ [x]) := by rw [← ih]
      _ = (a :: b :: t).dropLast ++ [x] := by simp

theorem boundaryMerge_sfx_nil {K : Type} [LinearOrder K]
    (pre : List (K × Int)) : boundaryMerge pre [] = pre := by
  unfold boundaryMerge
  cases h : pre.getLast? with
  | none => simp
  | some p => obtain ⟨k, w⟩ := p; simp

theorem boundaryMerge_last_cons {K : Type} [LinearOrder K]
    {pre : List (K × Int)} {k : K} {w : Int}
    (h : pre.getLast? = some (k, w)) (k2 : K) (w2 : Int)
    (rest : List (K × Int)) :
    boundaryMerge pre ((k2, w2) :: rest)
      = if k = k2 then
          (if w + w2 = 0 then pre.dropLast ++ rest
           else pre.dropLast ++ (k, w + w2) :: rest)
        else pre ++ (k2, w2) :: rest := by
  unfold boundaryMerge
  rw [h]

theorem boundary_fold_spec {K : Type} [LinearOrder K]
    (pre S : List (K × Int)) (lk : K) (w : Int)
    (hlast : pre.getLast? = some (lk, w))
    (hsorted : List.Pairwise (fun p q : K × Int => p.1 < q.1) pre)
    (hnz : ∀ p ∈ pre, p.2 ≠ 0)
    (hsfx : ∀ p ∈ S, lk ≤ p.1) :
    keyWeight lk (boundaryMerge pre (consolidate S)) = w + keyWeight lk S
    ∧ countKey lk (boundaryMerge pre (consolidate S)) ≤ 1
    ∧ (w + keyWeight lk S = 0 →
        ∀ p ∈ boundaryMerge pre (consolidate S), p.1 ≠ lk) := by
  have hdecomp : pre = pre.dropLast ++ [(lk, w)] := getLast?_decomp pre _ hlast
  have hd_lt : ∀ p ∈ pre.dropLast, p.1 < lk := by
    have hs2 := hsorted
    rw [hdecomp] at hs2
    rcases List.pairwise_append.mp hs2 with ⟨_, _, hcross⟩
    intro p hp
    exact hcross p hp (lk, w) (by simp)
  have hw_pre : keyWeight lk pre = w := by
    calc keyWeight lk pre = keyWeight lk (pre.dropLast ++ [(lk, w)]) := by
          rw [← hdecomp]
      _ = keyWeight lk pre.dropLast + keyWeight lk [(lk, w)] :=
          keyWeight_append _ _ _
      _ = w := by
          rw [keyWeight_eq_zero lk (fun p hp => ne_of_lt (hd_lt p hp)),
            keyWeight_cons]
          simp [keyWeight]
  have hcount_pre : countKey lk pre = 1 := by
    calc countKey lk pre = countKey lk (pre.dropLast ++ [(lk, w)]) := by
          rw [← hdecomp]
      _ = countKey lk pre.dropLast + countKey lk [(lk, w)] :=
          countKey_append _ _ _
      _ = 1 := by
          rw [countKey_eq_zero (fun p hp => ne_of_lt (hd_lt p hp)),
            countKey_cons]
          simp [countKey]
  have hwne : w ≠ 0 := by
    refine hnz (lk, w) ?_
    rw [hdecomp]
    exact List.mem_append_right _ (List.mem_singleton.mpr rfl)
  have hcsW : keyWeight lk (consolidate S) = keyWeight lk S :=
    consolidate_keyWeight lk S
  have hcs_pairwise := consolidate_pairwise S
  have hcs_ge : ∀ p ∈ consolidate S, lk ≤ p.1 := by
    intro p hp
    rcases List.mem_map.mp (mem_consolidate_keys hp) with ⟨q, hq, he⟩
    exact he ▸ hsfx q hq
  cases hcs : consolidate S with
  | nil =>
    have hS0 : keyWeight lk S = 0 := by
      rw [← hcsW, hcs]; rfl
    rw [boundaryMerge_sfx_nil, hS0, hw_pre]
    refine ⟨by ring, by simp [hcount_pre], fun hzero => ?_⟩
    exact absurd (by omega : w = 0) hwne
  | cons c rest =>
    obtain ⟨k2, w2⟩ := c
    rw [hcs] at hcs_pairwise hcs_ge
    have hrest_gt : ∀ q ∈ rest, k2 < q.1 := fun q hq =>
      List.rel_of_pairwise_cons hcs_pairwise hq
    have hlk_le : lk ≤ k2 := hcs_ge (k2, w2) (List.mem_cons_self _ _)
    rw [boundaryMerge_last_cons hlast]
    by_cases hk : lk = k2
    · subst hk
      have hrest0 : keyWeight lk rest = 0 :=
        keyWeight_eq_zero lk (fun q hq => ne_of_gt (hrest_gt q hq))
      have hrestc : countKey lk rest = 0 :=
        countKey_eq_zero (fun q hq => ne_of_gt (hrest_gt q hq))
      have hSw2 : keyWeight lk S = w2 := by
        rw [← hcsW, hcs, keyWeight_cons, hrest0]
        simp
      rw [if_pos rfl, hSw2]
      by_cases hz : w + w2 = 0
      · rw [if_pos hz]
        refine ⟨?_, ?_, fun hzero p hp => ?_⟩
        · rw [keyWeight_append,
            keyWeight_eq_zero lk (fun p hp => ne_of_lt (hd_lt p hp)), hrest0]
          omega
        · rw [countKey_append,
            countKey_eq_zero (fun p hp => ne_of_lt (hd_lt p hp)), hrestc]
          simp
        · rcases List.mem_append.mp hp with h1 | h1
          · exact ne_of_lt (hd_lt p h1)
          · exact ne_of_gt (hrest_gt p h1)
      · rw [if_neg hz]
        refine ⟨?_, ?_, fun hzero => absurd hzero hz⟩
        · rw [keyWeight_append,
            keyWeight_eq_zero lk (fun p hp => ne_of_lt (hd_lt p hp)),
            keyWeight_cons, hrest0]
          simp
        · rw [countKey_append,
            countKey_eq_zero (fun p hp => ne_of_lt (hd_lt p hp)),
            countKey_cons, hrestc]
          simp
    · have hlk_lt : lk < k2 := lt_of_le_of_ne hlk_le hk
      have hnotin : ∀ p ∈ (k2, w2) :: rest, p.1 ≠ lk := by
        intro p hp
        rcases List.mem_cons.mp hp with h1 | h1
        · rw [h1]; exact ne_of_gt hlk_lt
        · exact ne_of_gt (lt_trans hlk_lt (hrest_gt p h1))
      have hS0 : keyWeight lk S = 0 := by
        rw [← hcsW, hcs]
        exact keyWeight_eq_zero lk hnotin
      rw [if_neg hk, hS0]
      refine ⟨?_, ?_, fun hzero p hp => ?_⟩
      · rw [keyWeight_append, hw_pre, keyWeight_eq_zero lk hnotin]
      · rw [countKey_append, hcount_pre, countKey_eq_zero hnotin]
      · rcases List.mem_append.mp hp with h1 | h1
        · exfalso
          exact hwne (by omega)
        · exact hnotin p h1

/-! ### Helper lemmas: the offset filter -/

theorem retainGo_eq {α : Type} (p : α → Bool) (off : Nat) :
    ∀ (xs : List α) (i : Nat),
      retainGo p off i xs = xs.take (off - i) ++ (xs.drop (off - i)).filter p := by
  intro xs
  induction xs with
  | nil => intro i; simp [retainGo]
  | cons a rest ih =>
    intro i
    by_cases h : i < off
    · have heq : off - i = (off - (i + 1)) + 1 := by omega
      rw [retainGo, if_pos h, ih (i + 1), heq, List.take_succ_cons,
        List.drop_succ_cons]
      rfl
    · have h0 : off - i = 0 := by omega
      have h1 : off - (i + 1) = 0 := by omega
      rw [retainGo, if_neg h, ih (i + 1), h0, h1]
      simp only [List.take_zero, List.drop_zero, List.nil_append]
      rw [List.filter_cons]

theorem retain_starting_at_eq {α : Type} (xs : List α) (off : Nat)
    (p : α → Bool) :
    retain_starting_at xs off p = xs.take off ++ (xs.drop off).filter p := by
  unfold retain_starting_at
  rw [retainGo_eq p off xs 0]
  simp

/-! ### Helper lemmas: masks and the dedup primitive -/

theorem applyMask_cons_cons {α : Type} (b : Bool) (m : List Bool) (a : α)
    (rest : List α) :
    applyMask (b :: m) (a :: rest)
      = if b then a :: applyMask m rest else applyMask m rest := rfl

theorem applyMask_nil_list {α : Type} (m : List Bool) :
    applyMask m ([] : List α) = [] := by
  cases m <;> rfl

theorem take_zip_eq {α β : Type} :
    ∀ (n : Nat) (xs : List α) (ys : List β),
      (xs.zip ys).take n = (xs.take n).zip (ys.take n)
  | 0, _, _ => by simp
  | n + 1, [], ys => by simp
  | n + 1, x :: xs, [] => by simp
  | n + 1, x :: xs, y :: ys => by
    simp [List.zip_cons_cons, take_zip_eq n xs ys]

theorem drop_zip_eq {α β : Type} :
    ∀ (n : Nat) (xs : List α) (ys : List β),
      (xs.zip ys).drop n = (xs.drop n).zip (ys.drop n)
  | 0, _, _ => by simp
  | n + 1, [], ys => by simp
  | n + 1, x :: xs, [] => by simp
  | n + 1, x :: xs, y :: ys => by
    simp [List.zip_cons_cons, drop_zip_eq n xs ys]

theorem applyMask_zip {α β : Type} :
    ∀ (m : List Bool) (xs : List α) (ys : List β), xs.length = ys.length →
      applyMask m (xs.zip ys) = (applyMask m xs).zip (applyMask m ys)
  | [], xs, ys, h => rfl
  | b :: m, [], ys, h => by
    have : ys = [] := by
      cases ys with
      | nil => rfl
      | cons y t => simp at h
    subst this
    rfl
  | b :: m, x :: xs, [], h => by simp at h
  | b :: m, x :: xs, y :: ys, h => by
    have h2 : xs.length = ys.length := by simpa using h
    cases b with
    | true =>
      simp only [List.zip_cons_cons, applyMask_cons_cons, if_true]
      rw [applyMask_zip m xs ys h2]
    | false =>
      simp only [List.zip_cons_cons, applyMask_cons_cons, Bool.false_eq_true,
        if_false]
      exact applyMask_zip m xs ys h2

theorem applyMask_length_eq {α β : Type} :
    ∀ (m : List Bool) (xs : List α) (ys : List β), xs.length = ys.length →
      (applyMask m xs).length = (applyMask m ys).length
  | [], xs, ys, h => h
  | b :: m, [], ys, h => by
    have : ys = [] := by
      cases ys with
      | nil => rfl
      | cons y t => simp at h
    subst this
    rfl
  | b :: m, x :: xs, [], h => by simp at h
  | b :: m, x :: xs, y :: ys, h => by
    have h2 : xs.length = ys.length := by simpa using h
    cases b with
    | true =>
      simp only [applyMask_cons_cons, if_true, List.length_cons]
      rw [applyMask_length_eq m xs ys h2]
    | false =>
      simp only [applyMask_cons_cons, Bool.false_eq_true, if_false]
      exact applyMask_length_eq m xs ys h2

theorem applyMask_keepMaskAux {K P : Type} (same : K → K → Bool) :
    ∀ (z : List (K × P)) (r : K × P),
      applyMask (keepMaskAux same r.1 (z.map Prod.fst)) z
        = dedupFirstAux (fun a b => same a.1 b.1) r z
  | [], r => rfl
  | a :: rest, r => by
    simp only [List.map_cons, keepMaskAux, dedupFirstAux]
    by_cases hb : same a.1 r.1
    · rw [if_pos hb, if_pos hb, applyMask_cons_cons]
      simp only [Bool.false_eq_true, if_false]
      exact applyMask_keepMaskAux same rest r
    · rw [if_neg hb, if_neg hb, applyMask_cons_cons]
      simp only [if_true]
      rw [applyMask_keepMaskAux same rest a]

theorem applyMask_keepMask {K P : Type} (same : K → K → Bool) :
    ∀ (z : List (K × P)),
      applyMask (keepMask same (z.map Prod.fst)) z
        = dedupFirst (fun a b => same a.1 b.1) z
  | [] => rfl
  | a :: rest => by
    simp only [List.map_cons, keepMask, dedupFirst, applyMask_cons_cons,
      if_true]
    rw [applyMask_keepMaskAux same rest a]

theorem applyMask_keepMask_zip {K P : Type} (same : K → K → Bool)
    (ks : List K) (ps : List P) (h : ks.length = ps.length) :
    applyMask (keepMask same ks) (ks.zip ps)
      = dedupFirst (fun a b => same a.1 b.1) (ks.zip ps) := by
  have hm : (ks.zip ps).map Prod.fst = ks :=
    List.map_fst_zip _ _ (le_of_eq h)
  calc applyMask (keepMask same ks) (ks.zip ps)
      = applyMask (keepMask same ((ks.zip ps).map Prod.fst)) (ks.zip ps) := by
        rw [hm]
    _ = dedupFirst (fun a b => same a.1 b.1) (ks.zip ps) :=
        applyMask_keepMask same _

/-! ### Claim theorems -/

/-- C1: for every input batch of (key, weight) records and every key, the
sum of that key's input weights equals the weight of that key's single
output entry when the key appears in the consolidated output, and equals
zero when it does not; this holds for consolidate and for every layout
variant (consolidate_from at offset zero, consolidate_slice truncated to
the returned length, consolidate_paired_slices with both arrays truncated,
and consolidate_payload_from at offset zero). -/
theorem consolidate_sum_preservation {K : Type} [LinearOrder K]
    (b : List (K × Int)) (k : K) :
    (∀ w, (k, w) ∈ consolidate b → keyWeight k b = w)
    ∧ (k ∉ (consolidate b).map Prod.fst → keyWeight k b = 0)
    ∧ (∀ w, (k, w) ∈ consolidate_from b 0 → keyWeight k b = w)
    ∧ (k ∉ (consolidate_from b 0).map Prod.fst → keyWeight k b = 0)
    ∧ (∀ w, (k, w) ∈ (consolidate_slice b).1.take (consolidate_slice b).2 →
        keyWeight k b = w)
    ∧ (k ∉ ((consolidate_slice b).1.take (consolidate_slice b).2).map
          Prod.fst → keyWeight k b = 0)
    ∧ (∀ w, (k, w) ∈
        ((consolidate_paired_slices (b.map Prod.fst) (b.map Prod.snd)).1.1.take
            (consolidate_paired_slices (b.map Prod.fst) (b.map Prod.snd)).2).zip
          ((consolidate_paired_slices (b.map Prod.fst) (b.map Prod.snd)).1.2.take
            (consolidate_paired_slices (b.map Prod.fst) (b.map Prod.snd)).2) →
        keyWeight k b = w)
    ∧ (k ∉
        (((consolidate_paired_slices (b.map Prod.fst) (b.map Prod.snd)).1.1.take
            (consolidate_paired_slices (b.map Prod.fst) (b.map Prod.snd)).2).zip
          ((consolidate_paired_slices (b.map Prod.fst) (b.map Prod.snd)).1.2.take
            (consolidate_paired_slices (b.map Prod.fst) (b.map Prod.snd)).2)).map
          Prod.fst → keyWeight k b = 0)
    ∧ (∀ w, (k, w) ∈
        (consolidate_payload_from (b.map Prod.fst) (b.map Prod.snd) 0).1.zip
          (consolidate_payload_from (b.map Prod.fst) (b.map Prod.snd) 0).2 →
        keyWeight k b = w)
    ∧ (k ∉
        ((consolidate_payload_from (b.map Prod.fst) (b.map Prod.snd) 0).1.zip
          (consolidate_payload_from (b.map Prod.fst) (b.map Prod.snd) 0).2).map
          Prod.fst → keyWeight k b = 0) := by
  have hv1 : consolidate_from b 0 = consolidate b := consolidate_from_zero b
  have hv2 : (consolidate_slice b).1.take (consolidate_slice b).2
      = consolidate b := consolidate_slice_take b
  have hv3 :
      ((consolidate_paired_slices (b.map Prod.fst) (b.map Prod.snd)).1.1.take
          (consolidate_paired_slices (b.map Prod.fst) (b.map Prod.snd)).2).zip
        ((consolidate_paired_slices (b.map Prod.fst) (b.map Prod.snd)).1.2.take
          (consolidate_paired_slices (b.map Prod.fst) (b.map Prod.snd)).2)
      = consolidate b := by
    rw [consolidate_paired_take_zip, zipFstSnd]
  have hv4 :
      (consolidate_payload_from (b.map Prod.fst) (b.map Prod.snd) 0).1.zip
        (consolidate_payload_from (b.map Prod.fst) (b.map Prod.snd) 0).2
      = consolidate b := by
    rw [consolidate_payload_zip, zipFstSnd, consolidate_from_zero]
  have hmem : ∀ w, (k, w) ∈ consolidate b → keyWeight k b = w := by
    intro w hw
    rw [← consolidate_keyWeight k b]
    exact keyWeight_of_mem_pairwise (consolidate_pairwise b) hw
  have hnot : k ∉ (consolidate b).map Prod.fst → keyWeight k b = 0 := by
    intro hn
    rw [← consolidate_keyWeight k b]
    refine keyWeight_eq_zero k (fun p hp he => hn ?_)
    rw [← he]
    exact List.mem_map_of_mem Prod.fst hp
  refine ⟨hmem, hnot, ?_, ?_, ?_, ?_, ?_, ?_, ?_, ?_⟩
  · intro w hw; exact hmem w (by rwa [hv1] at hw)
  · intro hn; exact hnot (by rwa [hv1] at hn)
  · intro w hw; exact hmem w (by rwa [hv2] at hw)
  · intro hn; exact hnot (by rwa [hv2] at hn)
  · intro w hw; exact hmem w (by rwa [hv3] at hw)
  · intro hn; exact hnot (by rwa [hv3] at hn)
  · intro w hw; exact hmem w (by rwa [hv4] at hw)
  · intro hn; exact hnot (by rwa [hv4] at hn)

/-- C1 witness: on the batch [(1,5), (1,2)] the key 1 appears in the output
with weight 7, matching the input sum, and the absent key 3 has input sum
zero. -/
theorem consolidate_sum_preservation_witness :
    keyWeight 1 [((1 : ℕ), (5 : Int)), (1, 2)] = 7
    ∧ keyWeight 3 [((1 : ℕ), (5 : Int)), (1, 2)] = 0 :=
  ⟨(consolidate_sum_preservation [((1 : ℕ), (5 : Int)), (1, 2)] 1).1 7
      (by decide),
   (consolidate_sum_preservation [((1 : ℕ), (5 : Int)), (1, 2)] 3).2.1
      (by decide)⟩

/-- C2: for every input batch, the consolidated output has strictly
ascending keys (hence no duplicate keys), contains no zero weight, and its
length is at most the input length. -/
theorem consolidate_canonical_form {K : Type} [LinearOrder K]
    (b : List (K × Int)) :
    List.Pairwise (fun p q : K × Int => p.1 < q.1) (consolidate b)
    ∧ ((consolidate b).map Prod.fst).Nodup
    ∧ (∀ p ∈ consolidate b, p.2 ≠ 0)
    ∧ (consolidate b).length ≤ b.length :=
  ⟨consolidate_pairwise b,
   List.Pairwise.map Prod.fst (fun _ _ h => ne_of_lt h)
     (consolidate_pairwise b),
   fun _ hp => consolidate_nonzero hp,
   consolidate_length_le b⟩

/-- C2 witness: the surviving entry of the batch [(1,2), (1,-2), (0,5)] has
a nonzero weight. -/
theorem consolidate_canonical_form_witness :
    ((0 : ℕ), (5 : Int)).2 ≠ 0 :=
  (consolidate_canonical_form [((1 : ℕ), (2 : Int)), (1, -2), (0, 5)]).2.2.1
    (0, 5) (by decide)

/-- C3: for every input batch, the combined-array variant, the offset
variant at offset zero, the length-returning slice variant truncated to the
returned length, the parallel-slice variant with both arrays truncated to
the returned length, and the payload-offset variant at offset zero all
produce the identical (key, weight) sequence. -/
theorem consolidate_layout_equivalence {K : Type} [LinearOrder K]
    (b : List (K × Int)) :
    consolidate_from b 0 = consolidate b
    ∧ (consolidate_slice b).1.take (consolidate_slice b).2 = consolidate b
    ∧ ((consolidate_paired_slices (b.map Prod.fst) (b.map Prod.snd)).1.1.take
          (consolidate_paired_slices (b.map Prod.fst) (b.map Prod.snd)).2).zip
        ((consolidate_paired_slices (b.map Prod.fst) (b.map Prod.snd)).1.2.take
          (consolidate_paired_slices (b.map Prod.fst) (b.map Prod.snd)).2)
      = consolidate b
    ∧ (consolidate_payload_from (b.map Prod.fst) (b.map Prod.snd) 0).1.zip
        (consolidate_payload_from (b.map Prod.fst) (b.map Prod.snd) 0).2
      = consolidate b := by
  refine ⟨consolidate_from_zero b, consolidate_slice_take b, ?_, ?_⟩
  · rw [consolidate_paired_take_zip, zipFstSnd]
  · rw [consolidate_payload_zip, zipFstSnd, consolidate_from_zero]

/-- C8: consolidation is idempotent — consolidating an already-consolidated
batch yields identical content and length — and deterministic: equal inputs
give equal outputs. -/
theorem consolidate_idempotent {K : Type} [LinearOrder K]
    (b : List (K × Int)) :
    consolidate (consolidate b) = consolidate b
    ∧ (consolidate (consolidate b)).length = (consolidate b).length
    ∧ ∀ b2 : List (K × Int), b = b2 → consolidate b = consolidate b2 := by
  have h := consolidate_eq_self (consolidate_pairwise b)
    (fun _ hp => consolidate_nonzero hp)
  exact ⟨h, by rw [h], fun b2 he => by rw [he]⟩

/-- C8 witness: determinism instantiated on a concrete equal pair of
batches. -/
theorem consolidate_idempotent_witness :
    consolidate [((1 : ℕ), (1 : Int))] = consolidate [((1 : ℕ), (1 : Int))] :=
  (consolidate_idempotent [((1 : ℕ), (1 : Int))]).2.2 _ rfl

/-- C9: converting a ProjectStatus to its database columns and back
round-trips exactly, including the error-message payloads of the SQL and
Rust error variants. -/
theorem project_status_roundtrip (s : ProjectStatus) :
    ProjectStatus.from_columns s.to_columns.1 s.to_columns.2
      = Except.ok s := by
  cases s <;> rfl

/-- C10: every public consolidation operation is total on the empty input:
the consolidating operations return the empty output, and the
length-returning variants return length zero. -/
theorem consolidate_empty_total :
    consolidate ([] : List (ℕ × Int)) = []
    ∧ consolidate_from ([] : List (ℕ × Int)) 0 = []
    ∧ quicksort ([] : List ℕ) ([] : List ℕ) = ([], [])
    ∧ (∀ (off : Nat) (p : ℕ → Bool),
        retain_starting_at ([] : List ℕ) off p = [])
    ∧ (∀ (off : Nat) (same : ℕ → ℕ → Bool),
        dedup_payload_starting_at ([] : List ℕ) ([] : List ℕ) off same
          = ([], []))
    ∧ (consolidate_slice ([] : List (ℕ × Int))).2 = 0
    ∧ (consolidate_paired_slices ([] : List ℕ) ([] : List Int)).2 = 0 := by
  refine ⟨rfl, rfl, rfl, fun off p => rfl, fun off same => ?_, rfl, rfl⟩
  simp [dedup_payload_starting_at, keepMask, applyMask]

/-- C4 counterexample: the claim fails as stated. The region [(2,7)] before
offset 1 is canonical (strictly sorted, nonzero) and nonempty, and the
suffix [(1,1), (2,3)] contains the record (2,3) whose key equals the key of
the last entry of that region; yet its weight is not folded into that
entry: the output keeps (2,7) unchanged and emits key 2 a second time,
because the sorted suffix opens with the smaller key 1, so the key-equal
run is not the first suffix run. -/
theorem consolidate_from_suffix_fold_counterexample :
    consolidate_from [((2 : ℕ), (7 : Int)), (1, 1), (2, 3)] 1
      = [(2, 7), (1, 1), (2, 3)]
    ∧ countKey 2 (consolidate_from [((2 : ℕ), (7 : Int)), (1, 1), (2, 3)] 1)
      = 2 :=
  ⟨by decide, by decide⟩

/-- C4 (amended): for every offset call of consolidate_from whose region
before the offset is canonical (strictly ascending keys, no zero weights)
and nonempty, and all of whose suffix keys are at least the last key of
that region — so that the key-equal records form the first run of the
sorted suffix — the suffix weights for that key are folded into the
existing entry, the key is never emitted twice, and the entry is dropped
when the combined sum is zero; and the payload variant
consolidate_payload_from agrees with consolidate_from on the zipped
arrays at every offset. -/
theorem consolidate_from_boundary_fold {K : Type} [LinearOrder K]
    (b : List (K × Int)) (off : Nat) (lk : K) (w : Int)
    (hlast : (b.take off).getLast? = some (lk, w))
    (hsorted : List.Pairwise (fun p q : K × Int => p.1 < q.1) (b.take off))
    (hnz : ∀ p ∈ b.take off, p.2 ≠ 0)
    (hsfx : ∀ p ∈ b.drop off, lk ≤ p.1) :
    keyWeight lk (consolidate_from b off) = w + keyWeight lk (b.drop off)
    ∧ countKey lk (consolidate_from b off) ≤ 1
    ∧ (w + keyWeight lk (b.drop off) = 0 →
        ∀ p ∈ consolidate_from b off, p.1 ≠ lk)
    ∧ ∀ (ks : List K) (ws : List Int) (off2 : Nat),
        (consolidate_payload_from ks ws off2).1.zip
          (consolidate_payload_from ks ws off2).2
          = consolidate_from (ks.zip ws) off2 := by
  have h := boundary_fold_spec (b.take off) (b.drop off) lk w hlast hsorted
    hnz hsfx
  exact ⟨h.1, h.2.1, h.2.2, fun ks ws off2 => consolidate_payload_zip ks ws off2⟩

/-- C4 witness: scenario C. The canonical region [((1,1),7)] at offset 1
with appended suffix [((1,1),-7), ((2,2),4)] folds across the boundary: the
weight of key (1,1) is 7 + (-7), and the consolidated result is
[((2,2),4)]. -/
theorem consolidate_from_boundary_fold_witness :
    keyWeight (toLex ((1 : ℕ), (1 : ℕ)))
        (consolidate_from
          [(toLex ((1 : ℕ), (1 : ℕ)), (7 : Int)), (toLex (1, 1), -7),
            (toLex (2, 2), 4)] 1)
      = 7 + keyWeight (toLex ((1 : ℕ), (1 : ℕ)))
          ([(toLex ((1 : ℕ), (1 : ℕ)), (7 : Int)), (toLex (1, 1), -7),
            (toLex (2, 2), 4)].drop 1)
    ∧ consolidate_from
        [(toLex ((1 : ℕ), (1 : ℕ)), (7 : Int)), (toLex (1, 1), -7),
          (toLex (2, 2), 4)] 1
      = [(toLex (2, 2), 4)] :=
  ⟨(consolidate_from_boundary_fold
      [(toLex ((1 : ℕ), (1 : ℕ)), (7 : Int)), (toLex (1, 1), -7),
        (toLex (2, 2), 4)] 1 (toLex (1, 1)) 7
      (by decide) (by decide) (by decide) (by decide)).1,
   by decide⟩

/-- C5: for every pair of equal-length primary and companion arrays, the
two-array quicksort sorts the primary array ascending and applies the
identical index permutation to the companion array — the zipped output is
a permutation of the zipped input with ascending primary values — and for
pairwise-distinct primary keys the zipped output equals the unique
primary-sorted arrangement of the input pairs. -/
theorem quicksort_sorts_and_pairs {K V : Type} [LinearOrder K]
    (keys : List K) (vals : List V) (h : keys.length = vals.length) :
    (quicksort keys vals).1.length = keys.length
    ∧ (quicksort keys vals).2.length = vals.length
    ∧ List.Sorted (· ≤ ·) (quicksort keys vals).1
    ∧ ((quicksort keys vals).1.zip (quicksort keys vals).2).Perm
        (keys.zip vals)
    ∧ (keys.Nodup → ∀ m : List (K × V), m.Perm (keys.zip vals) →
        List.Pairwise fstLt m →
        (quicksort keys vals).1.zip (quicksort keys vals).2 = m) := by
  have hq1 : (quicksort keys vals).1
      = (sortByKey (keys.zip vals)).map Prod.fst := rfl
  have hq2 : (quicksort keys vals).2
      = (sortByKey (keys.zip vals)).map Prod.snd := rfl
  have hzip : (quicksort keys vals).1.zip (quicksort keys vals).2
      = sortByKey (keys.zip vals) := zipFstSnd _
  have hlen : (sortByKey (keys.zip vals)).length = keys.length := by
    rw [(sortByKey_perm _).length_eq, List.length_zip]
    simp [h]
  refine ⟨?_, ?_, ?_, ?_, ?_⟩
  · rw [hq1, List.length_map, hlen]
  · rw [hq2, List.length_map, hlen, h]
  · rw [hq1]
    exact List.Pairwise.map Prod.fst (fun _ _ hab => hab)
      (sortByKey_sorted (keys.zip vals))
  · rw [hzip]
    exact sortByKey_perm _
  · intro hnd m hm hsm
    have hperm : (sortByKey (keys.zip vals)).Perm m :=
      (sortByKey_perm _).trans hm.symm
    have hfst : (keys.zip vals).map Prod.fst = keys :=
      List.map_fst_zip _ _ (le_of_eq h)
    have hnodup2 : ((sortByKey (keys.zip vals)).map Prod.fst).Nodup := by
      refine (((sortByKey_perm (keys.zip vals)).map Prod.fst).nodup_iff).mpr ?_
      rw [hfst]
      exact hnd
    have hne : List.Pairwise (fun a b : K × V => a.1 ≠ b.1)
        (sortByKey (keys.zip vals)) := List.pairwise_map.mp hnodup2
    have hlt : List.Pairwise fstLt (sortByKey (keys.zip vals)) :=
      List.Pairwise.imp (fun hab => lt_of_le_of_ne hab.1 hab.2)
        ((sortByKey_sorted (keys.zip vals)).and hne)
    rw [hzip]
    exact List.eq_of_perm_of_sorted hperm hlt hsm

/-- C5 witness: sorting keys [2, 1] with companions [20, 10] produces the
pairing [(1,10), (2,20)], the unique primary-sorted arrangement. -/
theorem quicksort_sorts_and_pairs_witness :
    (quicksort [(2 : ℕ), 1] [(20 : ℕ), 10]).1.zip
      (quicksort [(2 : ℕ), 1] [(20 : ℕ), 10]).2 = [(1, 10), (2, 20)] :=
  (quicksort_sorts_and_pairs [(2 : ℕ), 1] [(20 : ℕ), 10] rfl).2.2.2.2
    (by decide) [(1, 10), (2, 20)] (by decide) (by decide)

/-- C6: for every key array, every offset, every payload column (a column
of row tuples covering none, one, or nested tuples of parallel arrays) of
the same length, and every comparator, dedup_payload_starting_at removes
the same index set from the key array and the payload column — both keep
their common length — and the zipped result equals the region below the
offset followed by keep-first-of-each-run applied to the zipped rows from
the offset on. -/
theorem dedup_payload_keep_first {K P : Type} (keys : List K)
    (payload : List P) (off : Nat) (same : K → K → Bool)
    (h : keys.length = payload.length) :
    (dedup_payload_starting_at keys payload off same).1.length
      = (dedup_payload_starting_at keys payload off same).2.length
    ∧ (dedup_payload_starting_at keys payload off same).1.zip
        (dedup_payload_starting_at keys payload off same).2
      = (keys.zip payload).take off
        ++ dedupFirst (fun a b => same a.1 b.1) ((keys.zip payload).drop off) := by
  have htl : (keys.take off).length = (payload.take off).length := by
    simp [h]
  have hdl : (keys.drop off).length = (payload.drop off).length := by
    simp [h]
  constructor
  · simp only [dedup_payload_starting_at, List.length_append]
    rw [applyMask_length_eq _ _ _ hdl, htl]
  · calc ((dedup_payload_starting_at keys payload off same).1.zip
          (dedup_payload_starting_at keys payload off same).2)
        = ((keys.take off).zip (payload.take off))
          ++ (applyMask (keepMask same (keys.drop off)) (keys.drop off)).zip
              (applyMask (keepMask same (keys.drop off)) (payload.drop off)) :=
          List.zip_append htl
      _ = ((keys.take off).zip (payload.take off))
          ++ applyMask (keepMask same (keys.drop off))
              ((keys.drop off).zip (payload.drop off)) := by
          rw [applyMask_zip _ _ _ hdl]
      _ = ((keys.take off).zip (payload.take off))
          ++ dedupFirst (fun a b => same a.1 b.1)
              ((keys.drop off).zip (payload.drop off)) := by
          rw [applyMask_keepMask_zip same _ _ hdl]
      _ = (keys.zip payload).take off
          ++ dedupFirst (fun a b => same a.1 b.1)
              ((keys.zip payload).drop off) := by
          rw [take_zip_eq, drop_zip_eq]

/-- C6 witness: on keys [1, 1, 2] with composite payload rows and offset 0
the dedup keeps the first row of each equal-key run. -/
theorem dedup_payload_keep_first_witness :
    (dedup_payload_starting_at [1, 1, 2]
        [((10 : ℕ), true), (20, true), (30, false)] 0
        (fun a b : ℕ => a == b)).1.zip
      (dedup_payload_starting_at [1, 1, 2]
        [((10 : ℕ), true), (20, true), (30, false)] 0
        (fun a b : ℕ => a == b)).2
      = ([1, 1, 2].zip [((10 : ℕ), true), (20, true), (30, false)]).take 0
        ++ dedupFirst (fun a b => a.1 == b.1)
            (([1, 1, 2].zip [((10 : ℕ), true), (20, true), (30, false)]).drop 0) :=
  (dedup_payload_keep_first [1, 1, 2]
    [((10 : ℕ), true), (20, true), (30, false)] 0 (fun a b : ℕ => a == b)
    rfl).2

/-- C7: for every array, offset, and predicate, retain_starting_at keeps
the region below the offset untouched and filters the region from the
offset on, preserving relative order; at offset zero it equals the
standard stable filter, and its result never depends on the predicate's
values outside the retained region. -/
theorem retain_starting_at_spec {α : Type} (xs : List α) (off : Nat)
    (p : α → Bool) :
    retain_starting_at xs off p = xs.take off ++ (xs.drop off).filter p
    ∧ retain_starting_at xs 0 p = xs.filter p
    ∧ ∀ q : α → Bool, (∀ a ∈ xs.drop off, p a = q a) →
        retain_starting_at xs off p = retain_starting_at xs off q := by
  refine ⟨retain_starting_at_eq xs off p, ?_, fun q hq => ?_⟩
  · rw [retain_starting_at_eq xs 0 p]
    simp
  · rw [retain_starting_at_eq, retain_starting_at_eq, List.filter_congr hq]

/-- C7 witness: two predicates agreeing beyond the offset produce the same
result on [1, 2, 3] with offset 1. -/
theorem retain_starting_at_spec_witness :
    retain_starting_at [1, 2, 3] 1 (fun a : ℕ => a % 2 == 0)
      = retain_starting_at [1, 2, 3] 1 (fun a : ℕ => decide (a ≤ 2)) :=
  (retain_starting_at_spec [1, 2, 3] 1 (fun a : ℕ => a % 2 == 0)).2.2
    (fun a : ℕ => decide (a ≤ 2)) (by decide)

end DBSP
